import Mathlib

/-!
Verification of the Vulkan occlusion-query cache
(src/video_core/renderer_vulkan/vk_query_cache.cpp).

The file embeds the pool bookkeeping (QueryPool::Commit, QueryPool::Allocate,
QueryPool::Reserve) and the counter lifecycle (HostCounter construction,
EndQuery, BlockingQuery, destruction) as executable Lean definitions, and
proves the stated properties about them.  The growable ticket pool
(vk_resource_pool) and the Vulkan device are external collaborators whose
code is not part of this repository; where their behaviour matters it is
modelled from the specification and marked as such.
-/

namespace Vulkan

/-- One native query-pool container, as created by CreateQueryPool inside
QueryPool::Allocate: a native handle plus the queryCount it was created
with.  Handles are modelled as natural numbers handed out by the device. -/
structure VkPool where
  handle : Nat
  queryCount : Nat
deriving DecidableEq, Repr

/-- State of a QueryPool together with the state of its external
collaborators that the embedded operations touch.  growStep is the
GROW_STEP constant (growth increment G); usage and pools are the fields of
QueryPool; nextHandle models the device handing out fresh native handles;
cursor is the state of the external growable ticket pool (modelled from the
spec: it issues monotonically increasing ticket indices). -/
structure QueryPool where
  growStep : Nat
  usage : List Bool
  pools : List VkPool
  nextHandle : Nat
  cursor : Nat
deriving DecidableEq, Repr

/-- std vector resize semantics: truncate to n, or pad with
value-initialized entries (false) up to length n. -/
def listResize (l : List Bool) (n : Nat) : List Bool :=
  l.take n ++ List.replicate (n - l.length) false

/-- QueryPool::Allocate (vk_query_cache.cpp lines 45-56): grow the usage
bit vector to length e and push one new native container created with
queryCount equal to e - b. -/
def QueryPool.Allocate (q : QueryPool) (b e : Nat) : QueryPool :=
  { q with
    usage := listResize q.usage e
    pools := q.pools ++ [⟨q.nextHandle, e - b⟩]
    nextHandle := q.nextHandle + 1 }

/-- Modelled from the spec: ResourcePool::CommitResource of the external
growable ticket pool (vk_resource_pool, not in this repository).  It issues
monotonically increasing ticket indices and, when capacity is exhausted,
first invokes the growth callback Allocate for the next chunk of GROW_STEP
indices. -/
def QueryPool.CommitResource (q : QueryPool) : Nat × QueryPool :=
  if q.cursor < q.usage.length then
    (q.cursor, { q with cursor := q.cursor + 1 })
  else
    let q2 := q.Allocate q.usage.length (q.usage.length + q.growStep)
    (q.cursor, { q2 with cursor := q.cursor + 1 })

/-- The do-while retry loop of QueryPool::Commit (lines 37-39): request a
ticket, and repeat while the usage bit at that ticket is already set.  The
fuel argument bounds the number of iterations so the definition is total;
the termination claim is proved separately. -/
def commitLoop : Nat → QueryPool → Option (Nat × QueryPool)
  | 0, _ => none
  | fuel + 1, q =>
    let p := q.CommitResource
    if p.2.usage.getD p.1 false then commitLoop fuel p.2
    else some p

/-- The slot returned for flat index i (line 42): the native handle of
container number i / GROW_STEP, and offset i mod GROW_STEP. -/
def QueryPool.slotOf (q : QueryPool) (i : Nat) : Nat × Nat :=
  ((q.pools.getD (i / q.growStep) ⟨0, 0⟩).handle, i % q.growStep)

/-- QueryPool::Commit (lines 35-43): loop until a free ticket index is
found, mark its usage bit, and return the (container handle, offset) pair
for that flat index. -/
def QueryPool.Commit (fuel : Nat) (q : QueryPool) :
    Option ((Nat × Nat) × QueryPool) :=
  match commitLoop fuel q with
  | none => none
  | some (index, q1) =>
    some (q1.slotOf index, { q1 with usage := q1.usage.set index true })

/-- The same retry loop run against an explicitly given sequence of ticket
indices.  Modelled from the spec: the external ticket pool may also cycle
back to indices previously freed, so the indices CommitResource returns are
taken here as an arbitrary sequence; the loop body (skip an index whose
usage bit is set) is the one of QueryPool::Commit. -/
def commitLoopT : List Nat → List Bool → Option (Nat × List Nat)
  | [], _ => none
  | t :: ts, u => if u.getD t false then commitLoopT ts u else some (t, ts)

/-- QueryPool::Commit over an explicit ticket sequence: skip used indices,
mark the first free one, return its slot and the remaining tickets. -/
def QueryPool.CommitSeq (tickets : List Nat) (q : QueryPool) :
    Option ((Nat × Nat) × QueryPool × List Nat) :=
  match commitLoopT tickets q.usage with
  | none => none
  | some (i, rest) =>
    some (q.slotOf i, { q with usage := q.usage.set i true }, rest)

/-- QueryPool::Reserve (lines 58-67): resolve the owning container by exact
match of the native handle (std find_if over pools), then clear the usage
bit at flat index (container position * GROW_STEP + offset).  The ASSERT
on a handle owned by no container is a fatal programming error, modelled
as none; in that case no state is produced and no bit is cleared. -/
def QueryPool.Reserve (q : QueryPool) (query : Nat × Nat) :
    Option QueryPool :=
  match q.pools.findIdx? (fun pool => query.1 == pool.handle) with
  | none => none
  | some poolIndex =>
    some { q with
           usage := q.usage.set (poolIndex * q.growStep + query.2) false }

/-- A pool as constructed by QueryPool::QueryPool: no containers, empty
usage vector, the ticket pool and the device handle supply both fresh. -/
def emptyPool (g : Nat) : QueryPool :=
  { growStep := g, usage := [], pools := [], nextHandle := 0, cursor := 0 }

/-- Observable calls a HostCounter makes on its collaborators: command
recordings on the scheduler, flush, the device result fetch, the device
loss report, and the Reserve call back into the cache. -/
inductive Event where
  | recordResetBegin (query : Nat × Nat)
  | recordEnd (query : Nat × Nat)
  | flush
  | getQueryResults (query : Nat × Nat)
  | reportLoss
  | reserve (type : Nat) (query : Nat × Nat)
deriving DecidableEq, Repr

/-- VkResult statuses distinguished by HostCounter::BlockingQuery:
VK_SUCCESS, VK_ERROR_DEVICE_LOST, and every other status. -/
inductive VkResult where
  | success
  | errorDeviceLost
  | other (code : Int)
deriving DecidableEq, Repr

/-- CPU-side state of one HostCounter: its query type, the slot it
allocated at construction, and the scheduler tick recorded then. -/
structure HostCounter where
  type : Nat
  query : Nat × Nat
  tick : Nat
deriving DecidableEq, Repr

/-- HostCounter::HostCounter (lines 98-107): the counter stores the slot
obtained from AllocateQuery and the current scheduler tick, and records a
reset-plus-begin command; the resulting state and the events emitted. -/
def HostCounter.construct (type : Nat) (query : Nat × Nat) (tick : Nat) :
    HostCounter × List Event :=
  (⟨type, query, tick⟩, [Event.recordResetBegin query])

/-- HostCounter::EndQuery (lines 113-116): record an end command for the
owned slot; side effect only. -/
def HostCounter.EndQuery (hc : HostCounter) : List Event :=
  [Event.recordEnd hc.query]

/-- HostCounter::BlockingQuery (lines 118-135).  The device fetch outcome
is given as an oracle pair of the VkResult status and the 64-bit value the
fetch would store.  Returns the emitted event list, in call order, and the
outcome of the call: the fetched value, or the thrown vk Exception
carrying the VkResult (fatal for device loss, generic otherwise). -/
def HostCounter.BlockingQuery (hc : HostCounter) (currentTick : Nat)
    (fetch : VkResult × Nat) : List Event × Except VkResult Nat :=
  let pre : List Event :=
    if hc.tick ≥ currentTick then [Event.flush] else []
  let evs := pre ++ [Event.getQueryResults hc.query]
  match fetch.1 with
  | VkResult.success => (evs, Except.ok fetch.2)
  | VkResult.errorDeviceLost =>
    (evs ++ [Event.reportLoss], Except.error VkResult.errorDeviceLost)
  | VkResult.other c => (evs, Except.error (VkResult.other c))

/-- HostCounter destructor (lines 109-111): exactly one call
cache.Reserve(type, query), on every exit path. -/
def HostCounter.destroy (hc : HostCounter) : List Event :=
  [Event.reserve hc.type hc.query]

/-- Full observable trace of one HostCounter life: construction, then
EndQuery if the caller invoked it, then BlockingQuery if the caller
invoked it, then destruction. -/
def lifecycle (type : Nat) (query : Nat × Nat) (tick : Nat)
    (didEnd didBlock : Bool) (currentTick : Nat) (fetch : VkResult × Nat) :
    List Event :=
  let c := HostCounter.construct type query tick
  c.2
    ++ (if didEnd then c.1.EndQuery else [])
    ++ (if didBlock then (c.1.BlockingQuery currentTick fetch).1 else [])
    ++ c.1.destroy

/-- Recognizer for Reserve events. -/
def isReserve : Event → Bool
  | Event.reserve _ _ => true
  | _ => false

/-- Recognizer for device result-fetch events. -/
def isFetch : Event → Bool
  | Event.getQueryResults _ => true
  | _ => false

/-- Setting a bit that already reads false (in range or out of range)
leaves the list unchanged. -/
theorem set_false_of_getD_false : ∀ (l : List Bool) (i : Nat),
    l.getD i false = false → l.set i false = l
  | [], _, _ => rfl
  | b :: l, 0, h => by simp_all [List.getD]
  | b :: l, i + 1, h => by
    simp only [List.set]
    rw [set_false_of_getD_false l i (by simpa [List.getD] using h)]

/-- A small concrete pool used to instantiate theorems: one container of
capacity 2 with native handle 10, both slots in use. -/
def qW : QueryPool :=
  { growStep := 2, usage := [true, true], pools := [⟨10, 2⟩],
    nextHandle := 11, cursor := 2 }

/-- The same pool with slot (10, 1) already free. -/
def qWfree : QueryPool :=
  { growStep := 2, usage := [true, false], pools := [⟨10, 2⟩],
    nextHandle := 11, cursor := 2 }

/-- C3: BlockingQuery issues a Flush call if and only if the counter tick
t satisfies t >= c for the scheduler current tick c observed at call time,
and when t < c no Flush event appears in the emitted trace at all, in
particular none before the result fetch. -/
theorem blockingQuery_flushes_iff (hc : HostCounter) (currentTick : Nat)
    (fetch : VkResult × Nat) :
    (Event.flush ∈ (hc.BlockingQuery currentTick fetch).1 ↔
      currentTick ≤ hc.tick) ∧
    (hc.tick < currentTick →
      Event.flush ∉ (hc.BlockingQuery currentTick fetch).1) := by
  obtain ⟨r, v⟩ := fetch
  constructor
  · cases r <;> by_cases h : currentTick ≤ hc.tick <;>
      simp [HostCounter.BlockingQuery, h]
  · intro hlt
    cases r <;>
      simp [HostCounter.BlockingQuery, Nat.not_le.mpr hlt]

/-- Witness for C3 at a concrete counter: tick 3 against current tick 7
produces no flush. -/
theorem blockingQuery_flushes_iff_witness :
    Event.flush ∉
      ((⟨0, (0, 0), 3⟩ : HostCounter).BlockingQuery 7
        (VkResult.success, 0)).1 :=
  (blockingQuery_flushes_iff ⟨0, (0, 0), 3⟩ 7 (VkResult.success, 0)).2
    (by decide)

/-- C4: result handling of the device fetch in BlockingQuery.  Success
returns the fetched value; device loss emits the loss report after the
fetch and then the call ends in the error carrying the device-lost status;
any other non-success status ends in the error carrying that status with
no loss report; the fetch happens exactly once (no retry); and the call
succeeds exactly when the fetch status is success (no failure swallowed). -/
theorem blockingQuery_result_handling (hc : HostCounter) (currentTick : Nat)
    (fetch : VkResult × Nat) :
    (fetch.1 = VkResult.success →
      (hc.BlockingQuery currentTick fetch).2 = Except.ok fetch.2 ∧
      Event.reportLoss ∉ (hc.BlockingQuery currentTick fetch).1) ∧
    (fetch.1 = VkResult.errorDeviceLost →
      (hc.BlockingQuery currentTick fetch).2 =
        Except.error VkResult.errorDeviceLost ∧
      ∃ pre, (hc.BlockingQuery currentTick fetch).1 =
        pre ++ [Event.getQueryResults hc.query, Event.reportLoss]) ∧
    (∀ c, fetch.1 = VkResult.other c →
      (hc.BlockingQuery currentTick fetch).2 =
        Except.error (VkResult.other c) ∧
      Event.reportLoss ∉ (hc.BlockingQuery currentTick fetch).1) ∧
    List.countP isFetch (hc.BlockingQuery currentTick fetch).1 = 1 ∧
    ((∃ v, (hc.BlockingQuery currentTick fetch).2 = Except.ok v) ↔
      fetch.1 = VkResult.success) := by
  obtain ⟨r, v⟩ := fetch
  cases r <;> by_cases h : currentTick ≤ hc.tick <;>
    simp [HostCounter.BlockingQuery, h, isFetch, List.countP_append,
      List.countP_cons, List.countP_nil]
  exact ⟨[Event.flush], rfl⟩

/-- Witness for C4 at a concrete counter: a device-lost fetch yields a loss
report placed right after the fetch and the device-lost error. -/
theorem blockingQuery_result_handling_witness :
    ((⟨0, (5, 1), 3⟩ : HostCounter).BlockingQuery 7
        (VkResult.errorDeviceLost, 0)).2 =
      Except.error VkResult.errorDeviceLost ∧
    ∃ pre, ((⟨0, (5, 1), 3⟩ : HostCounter).BlockingQuery 7
        (VkResult.errorDeviceLost, 0)).1 =
      pre ++ [Event.getQueryResults (5, 1), Event.reportLoss] :=
  (blockingQuery_result_handling ⟨0, (5, 1), 3⟩ 7
    (VkResult.errorDeviceLost, 0)).2.1 rfl

/-- C5: over the whole life of a HostCounter (construction, optional
EndQuery, optional BlockingQuery, destruction) exactly one Reserve call is
emitted, for the slot allocated at construction, whatever combination of
EndQuery and BlockingQuery the caller invoked. -/
theorem hostCounter_destroy_reserves_once (type : Nat) (query : Nat × Nat)
    (tick : Nat) (didEnd didBlock : Bool) (currentTick : Nat)
    (fetch : VkResult × Nat) :
    (lifecycle type query tick didEnd didBlock currentTick fetch).filter
      isReserve = [Event.reserve type query] := by
  obtain ⟨r, v⟩ := fetch
  cases didEnd <;> cases didBlock <;> cases r <;>
    by_cases h : tick ≥ currentTick <;>
    simp [lifecycle, HostCounter.construct, HostCounter.EndQuery,
      HostCounter.BlockingQuery, HostCounter.destroy, h,
      List.filter_append, isReserve]

/-- C6: Reserve on a slot whose native handle matches no container owned
by the pool hits the fatal ASSERT and produces no state (so no usage bit
is cleared); on a handle matching the container at position j it clears
exactly the bit at flat index j * GROW_STEP + offset. -/
theorem reserve_handle_matching (q : QueryPool) (s : Nat × Nat) :
    ((∀ p ∈ q.pools, p.handle ≠ s.1) → q.Reserve s = none) ∧
    (∀ j, q.pools.findIdx? (fun p => s.1 == p.handle) = some j →
      q.Reserve s =
        some { q with
               usage := q.usage.set (j * q.growStep + s.2) false }) := by
  constructor
  · intro h
    have hn : q.pools.findIdx? (fun p => s.1 == p.handle) = none := by
      refine List.findIdx?_eq_none_iff.mpr ?_
      intro x hx
      simpa using fun e => (h x hx) e.symm
    simp [QueryPool.Reserve, hn]
  · intro j hj
    simp [QueryPool.Reserve, hj]

/-- Witness for C6 at a concrete pool: handle 99 is owned by no container
and Reserve fails fatally; handle 10 resolves to container 0 and the bit
at flat index 1 is cleared. -/
theorem reserve_handle_matching_witness :
    qW.Reserve (99, 0) = none ∧
    qW.Reserve (10, 1) =
      some { qW with usage := qW.usage.set (0 * qW.growStep + 1) false } :=
  ⟨(reserve_handle_matching qW (99, 0)).1 (by decide),
   (reserve_handle_matching qW (10, 1)).2 0 (by decide)⟩

/-- C10: Reserve is idempotent on owned slots.  If the handle resolves to
container j and the usage bit at the computed flat index already reads
false, Reserve succeeds and returns the pool completely unchanged; the
double release is not detected. -/
theorem reserve_double_release_silent (q : QueryPool) (s : Nat × Nat)
    (j : Nat)
    (hf : q.pools.findIdx? (fun p => s.1 == p.handle) = some j)
    (hfree : q.usage.getD (j * q.growStep + s.2) false = false) :
    q.Reserve s = some q := by
  simp [QueryPool.Reserve, hf, set_false_of_getD_false _ _ hfree]

/-- Witness for C10: releasing the already-free slot (10, 1) a second time
silently returns the unchanged pool. -/
theorem reserve_double_release_silent_witness :
    qWfree.Reserve (10, 1) = some qWfree :=
  reserve_double_release_silent qWfree (10, 1) 0 (by decide) (by decide)

/-- The retry loop splits the ticket sequence at the first index whose
usage bit is free: every skipped ticket was marked used and the returned
index reads free. -/
theorem commitLoopT_spec : ∀ (ts : List Nat) (u : List Bool) (i : Nat)
    (rest : List Nat), commitLoopT ts u = some (i, rest) →
    ∃ pre, ts = pre ++ i :: rest ∧
      (∀ t ∈ pre, u.getD t false = true) ∧ u.getD i false = false
  | [], _, _, _, h => by simp [commitLoopT] at h
  | t :: ts, u, i, rest, h => by
    by_cases hb : u.getD t false = true
    · rw [commitLoopT, if_pos hb] at h
      obtain ⟨pre, hpre, hall, hfree⟩ := commitLoopT_spec ts u i rest h
      refine ⟨t :: pre, by simp [hpre], ?_, hfree⟩
      intro x hx
      rcases List.mem_cons.mp hx with hx | hx
      · exact hx ▸ hb
      · exact hall x hx
    · rw [commitLoopT, if_neg hb] at h
      obtain ⟨h1, h2⟩ := Prod.mk.injEq .. ▸ Option.some.injEq .. ▸ h
      refine ⟨[], by simp [h1, h2], by simp, ?_⟩
      rw [← h1]
      exact Bool.eq_false_iff.mpr (fun e => hb e)

/-- C1: a successful Commit over any ticket sequence returns the slot of
the first issued index whose usage bit was free at that moment, encoded as
(container index div G handle, index mod G); it marks exactly that bit
used and leaves every other bit unchanged, so it never returns a slot
currently marked used; and immediately after Reserve of slot (10, 1) on
the fully used pool qW, Commit may return that same slot again. -/
theorem commit_returns_free_slot :
    (∀ (q : QueryPool) (tickets : List Nat) (slot : Nat × Nat)
      (q2 : QueryPool) (rest : List Nat),
      q.CommitSeq tickets = some (slot, q2, rest) →
      ∃ i pre, tickets = pre ++ i :: rest ∧
        (∀ t ∈ pre, q.usage.getD t false = true) ∧
        q.usage.getD i false = false ∧
        slot = q.slotOf i ∧
        q2 = { q with usage := q.usage.set i true } ∧
        (∀ j, j ≠ i → q2.usage.getD j false = q.usage.getD j false)) ∧
    (∃ q1 q3, qW.Reserve (10, 1) = some q1 ∧
      q1.CommitSeq [1] = some ((10, 1), q3, [])) := by
  constructor
  · intro q tickets slot q2 rest h
    rw [QueryPool.CommitSeq] at h
    rcases hl : commitLoopT tickets q.usage with _ | ⟨i, rest1⟩
    · rw [hl] at h; exact absurd h (by simp)
    · rw [hl] at h
      obtain ⟨hslot, hq2, hrest⟩ := by
        simpa using h
      obtain ⟨pre, hpre, hall, hfree⟩ := commitLoopT_spec _ _ _ _ hl
      refine ⟨i, pre, hrest ▸ hpre, hall, hfree, hslot.symm, hq2.symm, ?_⟩
      intro j hj
      rw [← hq2]
      simp [List.getD_eq_getElem?_getD, List.getElem?_set_ne (Ne.symm hj)]
  · exact ⟨qWfree, qW, by decide, by decide⟩

/-- Witness for C1: committing on the freed pool with ticket sequence
(0, 1) skips the used index 0 and returns the slot of index 1. -/
theorem commit_returns_free_slot_witness :
    ∃ i pre, ([0, 1] : List Nat) = pre ++ i :: [] ∧
      (∀ t ∈ pre, qWfree.usage.getD t false = true) ∧
      qWfree.usage.getD i false = false ∧
      ((10, 1) : Nat × Nat) = qWfree.slotOf i ∧
      qW = { qWfree with usage := qWfree.usage.set i true } ∧
      (∀ j, j ≠ i → qW.usage.getD j false = qWfree.usage.getD j false) :=
  commit_returns_free_slot.1 qWfree [0, 1] (10, 1) qW [] (by decide)

/-- Capacity invariant of the pool: the usage bit sequence is exactly as
long as the sum of the container capacities. -/
def capInv (q : QueryPool) : Prop :=
  q.usage.length = (q.pools.map VkPool.queryCount).sum

/-- Resizing always yields the requested length. -/
theorem length_listResize (l : List Bool) (n : Nat) :
    (listResize l n).length = n := by
  simp [listResize]
  omega

/-- CommitResource keeps the capacity invariant: growth adds GROW_STEP
bits and one container of capacity GROW_STEP. -/
theorem commitResource_capInv (q : QueryPool) (h : capInv q) :
    capInv q.CommitResource.2 := by
  rw [QueryPool.CommitResource]
  by_cases hc : q.cursor < q.usage.length
  · simpa [hc, capInv] using h
  · simp only [hc, if_false]
    simp [capInv, QueryPool.Allocate, length_listResize] at h ⊢
    omega

/-- The retry loop keeps the capacity invariant. -/
theorem commitLoop_capInv : ∀ (fuel : Nat) (q i : _) (q1 : QueryPool),
    capInv q → commitLoop fuel q = some (i, q1) → capInv q1
  | 0, _, _, _, _, h => by simp [commitLoop] at h
  | fuel + 1, q, i, q1, hinv, h => by
    rw [commitLoop] at h
    by_cases hb : q.CommitResource.2.usage.getD q.CommitResource.1 false
  <;> simp only [hb, if_true, if_false] at h
    · exact commitLoop_capInv fuel _ i q1 (commitResource_capInv q hinv) h
    · obtain ⟨h1, h2⟩ := Prod.mk.injEq .. ▸ Option.some.injEq .. ▸ h
      exact h2 ▸ commitResource_capInv q hinv

/-- C8: Allocate called with begin equal to the current capacity grows the
usage sequence to length end and appends exactly one container of
capacity end - begin, so the capacity invariant (usage length equals the
sum of container capacities) is preserved by Allocate, by Commit
(including its internal growth), and by Reserve; and the slot for flat
index i is always (container i div G, offset i mod G). -/
theorem allocate_growth_invariant :
    (∀ (q : QueryPool) (b e : Nat), b = q.usage.length → b ≤ e →
      (q.Allocate b e).usage.length = e ∧
      (q.Allocate b e).pools = q.pools ++ [⟨q.nextHandle, e - b⟩]) ∧
    (∀ (q : QueryPool) (b e : Nat), b = q.usage.length → b ≤ e →
      capInv q → capInv (q.Allocate b e)) ∧
    (∀ (q : QueryPool) (fuel : Nat) (s : Nat × Nat) (q2 : QueryPool),
      capInv q → q.Commit fuel = some (s, q2) → capInv q2) ∧
    (∀ (q : QueryPool) (s : Nat × Nat) (q2 : QueryPool),
      capInv q → q.Reserve s = some q2 → capInv q2) ∧
    (∀ (q : QueryPool) (i : Nat),
      q.slotOf i =
        ((q.pools.getD (i / q.growStep) ⟨0, 0⟩).handle, i % q.growStep)) := by
  refine ⟨?_, ?_, ?_, ?_, fun q i => rfl⟩
  · intro q b e hb he
    exact ⟨length_listResize _ _, rfl⟩
  · intro q b e hb he hinv
    simp [capInv, QueryPool.Allocate, length_listResize] at hinv ⊢
    omega
  · intro q fuel s q2 hinv h
    rw [QueryPool.Commit] at h
    rcases hl : commitLoop fuel q with _ | ⟨i, q1⟩
    · rw [hl] at h; exact absurd h (by simp)
    · rw [hl] at h
      obtain ⟨h1, h2⟩ := Prod.mk.injEq .. ▸ Option.some.injEq .. ▸ h
      have := commitLoop_capInv fuel q i q1 hinv hl
      rw [← h2]
      simpa [capInv] using this
  · intro q s q2 hinv h
    rw [QueryPool.Reserve] at h
    rcases hf : q.pools.findIdx? (fun p => s.1 == p.handle) with _ | j
    · rw [hf] at h; exact absurd h (by simp)
    · rw [hf] at h
      obtain h2 := Option.some.injEq .. ▸ h
      rw [← h2]
      simpa [capInv] using hinv

/-- Witness for C8: growing the empty pool with increment 2 to capacity 2
yields a usage sequence of length 2 and the single container of
capacity 2. -/
theorem allocate_growth_invariant_witness :
    ((emptyPool 2).Allocate 0 2).usage.length = 2 ∧
    ((emptyPool 2).Allocate 0 2).pools =
      (emptyPool 2).pools ++ [⟨(emptyPool 2).nextHandle, 2 - 0⟩] :=
  allocate_growth_invariant.1 (emptyPool 2) 0 2 rfl (by decide)

/-- Invariant of the monotone ticket model: a positive growth increment,
the cursor within the committed capacity, and every usage bit at or
beyond the cursor free (only already-issued indices can be marked). -/
def goodState (q : QueryPool) : Prop :=
  0 < q.growStep ∧ q.cursor ≤ q.usage.length ∧
  ∀ j, q.cursor ≤ j → q.usage.getD j false = false

/-- Any bit at or past the original length reads false after a resize:
the padding entries are value-initialized to false. -/
theorem getD_listResize_of_le (l : List Bool) (n j : Nat)
    (h : l.length ≤ j) : (listResize l n).getD j false = false := by
  rw [listResize, List.getD_eq_getElem?_getD, List.getElem?_append_right
    (by simp [List.length_take]; omega)]
  rw [List.getElem?_replicate]
  split <;> rfl

/-- C9 part one, from the source of Allocate: every usage bit added by the
resize reads free. -/
theorem allocate_new_bits_free (q : QueryPool) (b e j : Nat)
    (hj : q.usage.length ≤ j) :
    (q.Allocate b e).usage.getD j false = false :=
  getD_listResize_of_le q.usage e j hj

/-- CommitResource below capacity: issue the cursor and advance it. -/
theorem commitResource_of_lt (q : QueryPool)
    (hc : q.cursor < q.usage.length) :
    q.CommitResource = (q.cursor, { q with cursor := q.cursor + 1 }) := by
  rw [QueryPool.CommitResource, if_pos hc]

/-- CommitResource at capacity: trigger Allocate for the next GROW_STEP
chunk, then issue the cursor and advance it. -/
theorem commitResource_of_ge (q : QueryPool)
    (hc : ¬ q.cursor < q.usage.length) :
    q.CommitResource =
      (q.cursor,
        { q.Allocate q.usage.length (q.usage.length + q.growStep) with
          cursor := q.cursor + 1 }) := by
  rw [QueryPool.CommitResource, if_neg hc]

/-- Under the invariant, CommitResource issues exactly the cursor index
and that index reads free afterwards, so the retry loop of Commit stops at
its first iteration. -/
theorem commitResource_fresh (q : QueryPool) (h : goodState q) :
    q.CommitResource.1 = q.cursor ∧
    q.CommitResource.2.usage.getD q.cursor false = false := by
  obtain ⟨hg, hle, hfree⟩ := h
  by_cases hc : q.cursor < q.usage.length
  · rw [commitResource_of_lt q hc]
    exact ⟨rfl, hfree q.cursor le_rfl⟩
  · rw [commitResource_of_ge q hc]
    exact ⟨rfl, allocate_new_bits_free q q.usage.length
      (q.usage.length + q.growStep) q.cursor (Nat.not_lt.mp hc)⟩

/-- Under the invariant, Commit with any positive fuel succeeds in one
loop iteration and issues the cursor index. -/
theorem commit_step (q : QueryPool) (h : goodState q) (fuel : Nat) :
    q.Commit (fuel + 1) =
      some (q.CommitResource.2.slotOf q.cursor,
        { q.CommitResource.2 with
          usage := q.CommitResource.2.usage.set q.cursor true }) := by
  obtain ⟨h1, h2⟩ := commitResource_fresh q h
  rw [QueryPool.Commit, commitLoop]
  rw [h1, h2]
  simp [h1]

/-- The invariant is preserved by a successful Commit. -/
theorem goodState_commit (q : QueryPool) (fuel : Nat) (s : Nat × Nat)
    (q2 : QueryPool) (hg : goodState q)
    (h : q.Commit fuel = some (s, q2)) : goodState q2 := by
  rcases fuel with _ | fuel
  · exact absurd h (by simp [QueryPool.Commit, commitLoop])
  rw [commit_step q hg fuel] at h
  obtain ⟨hs, hq2⟩ := Prod.mk.injEq .. ▸ Option.some.injEq .. ▸ h
  obtain ⟨hgs, hle, hfree⟩ := hg
  rw [← hq2]
  by_cases hc : q.cursor < q.usage.length
  · rw [commitResource_of_lt q hc]
    show goodState
      { growStep := q.growStep, usage := q.usage.set q.cursor true,
        pools := q.pools, nextHandle := q.nextHandle,
        cursor := q.cursor + 1 }
    refine ⟨hgs, by simpa using hc, ?_⟩
    intro j hj
    simp only at hj
    rw [List.getD_eq_getElem?_getD,
      List.getElem?_set_ne (by omega : q.cursor ≠ j),
      ← List.getD_eq_getElem?_getD]
    exact hfree j (by omega)
  · rw [commitResource_of_ge q hc]
    have hceq : q.usage.length = q.cursor :=
      le_antisymm (Nat.not_lt.mp hc) hle
    show goodState
      { growStep := q.growStep,
        usage := (listResize q.usage
          (q.usage.length + q.growStep)).set q.cursor true,
        pools := q.pools ++ [⟨q.nextHandle, _⟩],
        nextHandle := q.nextHandle + 1, cursor := q.cursor + 1 }
    refine ⟨hgs, ?_, ?_⟩
    · simp only [List.length_set, length_listResize]
      omega
    · intro j hj
      simp only at hj
      rw [List.getD_eq_getElem?_getD,
        List.getElem?_set_ne (by omega : q.cursor ≠ j),
        ← List.getD_eq_getElem?_getD]
      exact getD_listResize_of_le _ _ _ (by omega)

/-- The invariant is preserved by a successful Reserve: clearing a bit
cannot make a bit at or beyond the cursor read used. -/
theorem goodState_reserve (q : QueryPool) (s : Nat × Nat)
    (q2 : QueryPool) (hg : goodState q)
    (h : q.Reserve s = some q2) : goodState q2 := by
  rw [QueryPool.Reserve] at h
  rcases hf : q.pools.findIdx? (fun p => s.1 == p.handle) with _ | j
  · rw [hf] at h; exact absurd h (by simp)
  · rw [hf] at h
    obtain h2 := Option.some.injEq .. ▸ h
    obtain ⟨hgs, hle, hfree⟩ := hg
    rw [← h2]
    refine ⟨hgs, by simpa using hle, ?_⟩
    intro k hk
    simp only at hk
    rw [List.getD_eq_getElem?_getD, List.getElem?_set]
    by_cases he : j * q.growStep + s.2 = k <;> simp only [he, if_true,
      if_false, ite_self]
    · split <;> rfl
    · rw [← List.getD_eq_getElem?_getD]
      exact hfree k hk

/-- Pool states reachable from a fresh pool with positive growth
increment through successful Commit and Reserve calls. -/
inductive Reachable : QueryPool → Prop
  | empty (g : Nat) (hg : 0 < g) : Reachable (emptyPool g)
  | commit (q : QueryPool) (fuel : Nat) (s : Nat × Nat) (q2 : QueryPool) :
      Reachable q → q.Commit fuel = some (s, q2) → Reachable q2
  | reserve (q : QueryPool) (s : Nat × Nat) (q2 : QueryPool) :
      Reachable q → q.Reserve s = some q2 → Reachable q2

/-- Every reachable state satisfies the invariant. -/
theorem reachable_goodState (q : QueryPool) (h : Reachable q) :
    goodState q := by
  induction h with
  | empty g hg => exact ⟨hg, Nat.le_refl 0, fun j _ => rfl⟩
  | commit q fuel s q2 _ hc ih => exact goodState_commit q fuel s q2 ih hc
  | reserve q s q2 _ hr ih => exact goodState_reserve q s q2 ih hr

/-- C9: every usage bit added by Allocate is initialized free, and, with
the ticket pool modelled from the spec (growth then an index in the new
range once existing capacity is exhausted), the Commit retry loop
terminates in every reachable pool state: one iteration of fuel already
suffices for Commit to return a slot. -/
theorem commit_loop_terminates :
    (∀ (q : QueryPool) (b e j : Nat), q.usage.length ≤ j →
      (q.Allocate b e).usage.getD j false = false) ∧
    (∀ q : QueryPool, Reachable q → (q.Commit 1).isSome) := by
  refine ⟨allocate_new_bits_free, ?_⟩
  intro q h
  rw [commit_step q (reachable_goodState q h) 0]
  rfl

/-- Witness for C9: on the freshly constructed pool with increment 2,
fuel 1 is enough for Commit to succeed. -/
theorem commit_loop_terminates_witness :
    ((emptyPool 2).Commit 1).isSome :=
  commit_loop_terminates.2 (emptyPool 2) (Reachable.empty 2 (by decide))

/-- n successive Commit calls, collecting the returned slots in order. -/
def commitN : Nat → Nat → QueryPool → Option (List (Nat × Nat) × QueryPool)
  | 0, _, q => some ([], q)
  | n + 1, fuel, q =>
    match q.Commit fuel with
    | none => none
    | some (s, q2) =>
      match commitN n fuel q2 with
      | none => none
      | some (ss, q3) => some (s :: ss, q3)

/-- Every bit of a replicate of false reads false. -/
theorem getD_replicate_false (m j : Nat) :
    (List.replicate m false).getD j false = false := by
  rw [List.getD_eq_getElem?_getD, List.getElem?_replicate]
  split <;> rfl

/-- Setting the bit right after a block of set bits extends the block. -/
theorem set_after_trues : ∀ (k : Nat) (l : List Bool),
    (List.replicate k true ++ false :: l).set k true =
      List.replicate (k + 1) true ++ l
  | 0, l => rfl
  | k + 1, l => by
    show true :: (List.replicate k true ++ false :: l).set k true =
      List.replicate (k + 2) true ++ l
    rw [set_after_trues k l]
    rfl

/-- Pool state after the first k commits on a fresh pool of increment g
(1 <= k <= g): one container, the first k bits used, cursor at k. -/
def stOne (g k : Nat) : QueryPool :=
  { growStep := g,
    usage := List.replicate k true ++ List.replicate (g - k) false,
    pools := [⟨0, g⟩], nextHandle := 1, cursor := k }

/-- One commit in the middle of the first container: slot (handle 0,
offset k), one more bit used. -/
theorem stOne_commit (g k : Nat) (hk : k < g) :
    (stOne g k).Commit 1 = some ((0, k), stOne g (k + 1)) := by
  have hlen : k < (List.replicate k true
      ++ List.replicate (g - k) false).length := by
    simp
    omega
  have hfree : (List.replicate k true
      ++ List.replicate (g - k) false).getD k false = false := by
    rw [List.getD_append_right _ _ _ _ (by simp)]
    exact getD_replicate_false _ _
  have hfree2 : ∀ hh : k < (List.replicate k true
      ++ List.replicate (g - k) false).length,
      (List.replicate k true ++ List.replicate (g - k) false)[k] = false := by
    intro hh
    have h0 := hfree
    rw [List.getD_eq_getElem?_getD, List.getElem?_eq_getElem hh] at h0
    simpa using h0
  have husage : (List.replicate k true
      ++ List.replicate (g - k) false).set k true
      = List.replicate (k + 1) true ++ List.replicate (g - (k + 1)) false := by
    have hsplit : g - k = (g - (k + 1)) + 1 := by omega
    rw [hsplit, List.replicate_succ]
    exact set_after_trues k _
  simp [QueryPool.Commit, commitLoop, QueryPool.CommitResource, stOne,
    QueryPool.slotOf, hk, hlen, hfree, hfree2, husage, Nat.div_eq_of_lt hk,
    Nat.mod_eq_of_lt hk]

/-- The very first commit on a fresh pool triggers growth of the first
container and returns slot (handle 0, offset 0). -/
theorem emptyPool_commit (g : Nat) (hg : 0 < g) :
    (emptyPool g).Commit 1 = some ((0, 0), stOne g 1) := by
  obtain ⟨m, rfl⟩ : ∃ m, g = m + 1 := ⟨g - 1, by omega⟩
  simp [QueryPool.Commit, commitLoop, QueryPool.CommitResource, emptyPool,
    QueryPool.Allocate, listResize, QueryPool.slotOf, stOne,
    List.replicate_succ]

/-- Pool state after g + 1 commits on a fresh pool of increment g: two
containers of capacity g each, bits 0..g used, cursor at g + 1. -/
def stTwo (g : Nat) : QueryPool :=
  { growStep := g,
    usage := List.replicate (g + 1) true ++ List.replicate (g - 1) false,
    pools := [⟨0, g⟩, ⟨1, g⟩], nextHandle := 2, cursor := g + 1 }

/-- The commit of flat index g: the first container is full, so growth
adds a second container and the returned slot is (handle 1, offset 0). -/
theorem stOne_full_commit (g : Nat) (hg : 0 < g) :
    (stOne g g).Commit 1 = some ((1, 0), stTwo g) := by
  obtain ⟨m, rfl⟩ : ∃ m, g = m + 1 := ⟨g - 1, by omega⟩
  have hfq : (List.replicate m true
      ++ false :: List.replicate m false)[m]? = some false := by
    rw [List.getElem?_append_right (by simp)]
    simp
  have hfree2 : ∀ hh : m < (List.replicate m true
      ++ false :: List.replicate m false).length,
      (List.replicate m true ++ false :: List.replicate m false)[m]
        = false := by
    intro hh
    have h1 := List.getElem?_eq_getElem hh
    rw [hfq] at h1
    exact (Option.some.inj h1).symm
  have hset : (List.replicate m true
      ++ false :: List.replicate m false).set m true
      = List.replicate (m + 1) true ++ List.replicate m false :=
    set_after_trues m (List.replicate m false)
  simp [QueryPool.Commit, commitLoop, QueryPool.CommitResource, stOne,
    stTwo, QueryPool.Allocate, listResize, QueryPool.slotOf, Nat.sub_self,
    Nat.div_self, Nat.mod_self, List.replicate_succ, hfree2, hset,
    List.take_of_length_le]

/-- Splitting a run of commits: a + b successive commits are a commits
followed by b commits on the intermediate state. -/
theorem commitN_split : ∀ (a b fuel : Nat) (q : QueryPool),
    commitN (a + b) fuel q =
      (match commitN a fuel q with
      | none => none
      | some (ss, q1) =>
        match commitN b fuel q1 with
        | none => none
        | some (ts, q2) => some (ss ++ ts, q2))
  | 0, b, fuel, q => by
    rw [Nat.zero_add]
    simp only [commitN]
    rcases commitN b fuel q with _ | ⟨ts, q2⟩ <;> simp
  | a + 1, b, fuel, q => by
    rw [Nat.succ_add]
    simp only [commitN]
    rcases hq : q.Commit fuel with _ | ⟨s, q2⟩
    · simp
    · simp only []
      rw [commitN_split a b fuel q2]
      rcases ha : commitN a fuel q2 with _ | ⟨ss, q1⟩
      · simp
      · rcases hb : commitN b fuel q1 with _ | ⟨ts, q3⟩ <;> simp [hb]

/-- Running n commits inside the first container walks the cursor from k
to k + n. -/
theorem commitN_stOne_len : ∀ (n g k : Nat), k + n ≤ g →
    ∃ ss, commitN n 1 (stOne g k) = some (ss, stOne g (k + n))
  | 0, g, k, _ => ⟨[], by simp [commitN]⟩
  | n + 1, g, k, h => by
    obtain ⟨ss, hss⟩ := commitN_stOne_len n g (k + 1) (by omega)
    refine ⟨(0, k) :: ss, ?_⟩
    simp only [commitN]
    rw [stOne_commit g k (by omega)]
    simp only []
    rw [hss]
    rw [show k + 1 + n = k + (n + 1) from by omega]

/-- C7: starting from the empty pool with growth increment g, after
exactly g + 1 commits and zero reserves the pool holds exactly the two
containers (handle 0, capacity g) and (handle 1, capacity g), and the
last commit (the one of flat index g) returned slot (handle 1, offset 0),
that is container 1, offset 0. -/
theorem pool_growth_after_g_plus_one (g : Nat) (hg : 0 < g) :
    ∃ slots qf, commitN (g + 1) 1 (emptyPool g) = some (slots, qf) ∧
      qf.pools = [⟨0, g⟩, ⟨1, g⟩] ∧
      (∀ p ∈ qf.pools, p.queryCount = g) ∧
      slots.getLast? = some (1, 0) := by
  obtain ⟨ss, hss⟩ := commitN_stOne_len (g - 1) g 1 (by omega)
  refine ⟨(0, 0) :: (ss ++ [(1, 0)]), stTwo g, ?_, rfl, ?_, ?_⟩
  · rw [show g + 1 = 1 + (g - 1) + 1 from by omega]
    rw [commitN_split (1 + (g - 1)) 1 1 (emptyPool g)]
    rw [commitN_split 1 (g - 1) 1 (emptyPool g)]
    simp only [commitN]
    rw [emptyPool_commit g hg]
    simp only []
    rw [hss]
    simp only []
    rw [show 1 + (g - 1) = g from by omega]
    rw [stOne_full_commit g hg]
    simp
  · intro p hp
    simp only [stTwo, List.mem_cons, List.mem_singleton] at hp
    rcases hp with rfl | hp
    · rfl
    · rcases hp with rfl | hp
      · rfl
      · exact absurd hp (List.not_mem_nil p)
  · show (((0, 0) :: ss) ++ [(1, 0)]).getLast? = some (1, 0)
    exact List.getLast?_concat _

/-- Witness for C7 at g = 2: three commits on the fresh pool produce two
containers of capacity 2 and the last slot is (handle 1, offset 0). -/
theorem pool_growth_after_g_plus_one_witness :
    ∃ slots qf, commitN (2 + 1) 1 (emptyPool 2) = some (slots, qf) ∧
      qf.pools = [⟨0, 2⟩, ⟨1, 2⟩] ∧
      (∀ p ∈ qf.pools, p.queryCount = 2) ∧
      slots.getLast? = some (1, 0) :=
  pool_growth_after_g_plus_one 2 (by decide)

/-- n successive Commit calls over an explicit ticket sequence with no
interleaved Reserve, collecting the returned slots in call order. -/
def commitSeqN : Nat → List Nat → QueryPool →
    Option (List (Nat × Nat) × QueryPool)
  | 0, _, q => some ([], q)
  | n + 1, ts, q =>
    match q.CommitSeq ts with
    | none => none
    | some (s, q2, rest) =>
      match commitSeqN n rest q2 with
      | none => none
      | some (ss, q3) => some (s :: ss, q3)

/-- The same run at the level of flat indices and the usage bit vector
only (CommitSeq never touches the containers). -/
def commitIdxs : Nat → List Nat → List Bool →
    Option (List Nat × List Bool)
  | 0, _, u => some ([], u)
  | n + 1, ts, u =>
    match commitLoopT ts u with
    | none => none
    | some (i, rest) =>
      match commitIdxs n rest (u.set i true) with
      | none => none
      | some (is, u2) => some (i :: is, u2)

/-- Reading the bit just set. -/
theorem getD_set_self (l : List Bool) (i : Nat) (hi : i < l.length)
    (a : Bool) : (l.set i a).getD i false = a := by
  rw [List.getD_eq_getElem?_getD, List.getElem?_set_self hi]
  rfl

/-- Reading any other bit after a set. -/
theorem getD_set_ne (l : List Bool) (i j : Nat) (h : i ≠ j) (a : Bool) :
    (l.set i a).getD j false = l.getD j false := by
  rw [List.getD_eq_getElem?_getD, List.getElem?_set_ne h,
    ← List.getD_eq_getElem?_getD]

/-- A slot-level run projects onto an index-level run through slotOf. -/
theorem commitSeqN_to_idxs : ∀ (n : Nat) (ts : List Nat) (q : QueryPool)
    (ss : List (Nat × Nat)) (q1 : QueryPool),
    commitSeqN n ts q = some (ss, q1) →
    ∃ is, commitIdxs n ts q.usage = some (is, q1.usage) ∧
      ss = is.map q.slotOf
  | 0, ts, q, ss, q1, h => by
    simp only [commitSeqN] at h
    obtain ⟨h1, h2⟩ := Prod.mk.injEq .. ▸ Option.some.injEq .. ▸ h
    subst h1
    subst h2
    exact ⟨[], rfl, rfl⟩
  | n + 1, ts, q, ss, q1, h => by
    simp only [commitSeqN, QueryPool.CommitSeq] at h
    rcases hl : commitLoopT ts q.usage with _ | ⟨i, rest⟩
    · rw [hl] at h
      exact absurd h (by simp)
    · rw [hl] at h
      simp only [] at h
      rcases hs : commitSeqN n rest { q with usage := q.usage.set i true }
        with _ | ⟨ss2, q3⟩
      · rw [hs] at h
        exact absurd h (by simp)
      · rw [hs] at h
        obtain ⟨h1, h2⟩ := Prod.mk.injEq .. ▸ Option.some.injEq .. ▸ h
        obtain ⟨is2, hidx, hmap⟩ := commitSeqN_to_idxs n rest _ ss2 q3 hs
        refine ⟨i :: is2, ?_, ?_⟩
        · simp only [commitIdxs, hl]
          rw [show commitIdxs n rest (q.usage.set i true)
            = some (is2, q3.usage) from hidx]
          rw [h2]
        · rw [← h1, hmap]
          rfl

/-- In an index-level run with in-range tickets, the returned flat
indices are distinct, in range, and avoid every index already marked. -/
theorem commitIdxs_facts : ∀ (n : Nat) (ts : List Nat) (u : List Bool)
    (is : List Nat) (u1 : List Bool),
    (∀ t ∈ ts, t < u.length) →
    commitIdxs n ts u = some (is, u1) →
    is.Nodup ∧ (∀ j ∈ is, j < u.length) ∧
      (∀ j, u.getD j false = true → j ∉ is)
  | 0, ts, u, is, u1, hb, h => by
    simp only [commitIdxs] at h
    obtain ⟨h1, h2⟩ := Prod.mk.injEq .. ▸ Option.some.injEq .. ▸ h
    subst h1
    exact ⟨List.nodup_nil, by simp, by simp⟩
  | n + 1, ts, u, is, u1, hb, h => by
    simp only [commitIdxs] at h
    rcases hl : commitLoopT ts u with _ | ⟨i, rest⟩
    · rw [hl] at h
      exact absurd h (by simp)
    rw [hl] at h
    simp only [] at h
    rcases hs : commitIdxs n rest (u.set i true) with _ | ⟨is2, u2⟩
    · rw [hs] at h
      exact absurd h (by simp)
    rw [hs] at h
    obtain ⟨h1, h2⟩ := Prod.mk.injEq .. ▸ Option.some.injEq .. ▸ h
    obtain ⟨pre, hpre, hall, hfree⟩ := commitLoopT_spec ts u i rest hl
    have hmemi : i ∈ ts := by
      rw [hpre]
      simp
    have hib : i < u.length := hb i hmemi
    have hbrest : ∀ t ∈ rest, t < (u.set i true).length := by
      intro t ht
      rw [List.length_set]
      refine hb t ?_
      rw [hpre]
      simp [ht]
    obtain ⟨hnd2, hb2, hmark2⟩ :=
      commitIdxs_facts n rest (u.set i true) is2 u2 hbrest hs
    have hinotin : i ∉ is2 := hmark2 i (getD_set_self u i hib true)
    subst h1
    refine ⟨List.nodup_cons.mpr ⟨hinotin, hnd2⟩, ?_, ?_⟩
    · intro j hj
      rcases List.mem_cons.mp hj with rfl | hj2
      · exact hib
      · have hlt := hb2 j hj2
        rw [List.length_set] at hlt
        exact hlt
    · intro j hj hmem
      rcases List.mem_cons.mp hmem with rfl | hmem2
      · rw [hfree] at hj
        simp at hj
      · have hij : i ≠ j := by
          intro e
          rw [← e, hfree] at hj
          simp at hj
        refine hmark2 j ?_ hmem2
        rw [getD_set_ne u i j hij]
        exact hj

/-- Distinct in-range flat indices give distinct (container handle,
offset) slots, provided the container handles are distinct and the bit
vector does not exceed the total container capacity. -/
theorem slotOf_inj (q : QueryPool)
    (hnd : (q.pools.map VkPool.handle).Nodup)
    (hcap : q.usage.length ≤ q.growStep * q.pools.length)
    (hg : 0 < q.growStep) (i j : Nat) (hi : i < q.usage.length)
    (hj : j < q.usage.length) (heq : q.slotOf i = q.slotOf j) : i = j := by
  have hip : i / q.growStep < q.pools.length := by
    rw [Nat.div_lt_iff_lt_mul hg]
    calc i < q.usage.length := hi
    _ ≤ q.growStep * q.pools.length := hcap
    _ = q.pools.length * q.growStep := Nat.mul_comm _ _
  have hjp : j / q.growStep < q.pools.length := by
    rw [Nat.div_lt_iff_lt_mul hg]
    calc j < q.usage.length := hj
    _ ≤ q.growStep * q.pools.length := hcap
    _ = q.pools.length * q.growStep := Nat.mul_comm _ _
  simp only [QueryPool.slotOf] at heq
  obtain ⟨h1, h2⟩ := Prod.mk.injEq .. ▸ heq
  have hgi : q.pools.getD (i / q.growStep) ⟨0, 0⟩
      = q.pools.get ⟨i / q.growStep, hip⟩ := by
    rw [List.getD_eq_getElem?_getD, List.getElem?_eq_getElem hip]
    rfl
  have hgj : q.pools.getD (j / q.growStep) ⟨0, 0⟩
      = q.pools.get ⟨j / q.growStep, hjp⟩ := by
    rw [List.getD_eq_getElem?_getD, List.getElem?_eq_getElem hjp]
    rfl
  rw [hgi, hgj] at h1
  have hdiv : i / q.growStep = j / q.growStep := by
    have hmap : (q.pools.map VkPool.handle).get
        ⟨i / q.growStep, by simpa using hip⟩
        = (q.pools.map VkPool.handle).get
        ⟨j / q.growStep, by simpa using hjp⟩ := by
      rw [List.get_map, List.get_map]
      exact h1
    have hfin := (hnd.get_inj_iff).mp hmap
    exact congrArg Fin.val hfin
  have e1 : q.growStep * (i / q.growStep) + i % q.growStep = i :=
    Nat.div_add_mod i _
  have e2 : q.growStep * (j / q.growStep) + j % q.growStep = j :=
    Nat.div_add_mod j _
  rw [hdiv] at e1
  omega

/-- C2: over any ticket sequence of in-range indices, a run of Commit
calls with no interleaved Reserve returns pairwise distinct (container
handle, offset) slots, provided the pool state is consistent: distinct
container handles, positive growth increment, and a usage vector no
longer than the total container capacity. -/
theorem commit_slots_pairwise_distinct (q : QueryPool) (n : Nat)
    (ts : List Nat) (slots : List (Nat × Nat)) (q1 : QueryPool)
    (hnd : (q.pools.map VkPool.handle).Nodup)
    (hb : ∀ t ∈ ts, t < q.usage.length)
    (hcap : q.usage.length ≤ q.growStep * q.pools.length)
    (hg : 0 < q.growStep)
    (h : commitSeqN n ts q = some (slots, q1)) :
    slots.Pairwise (· ≠ ·) := by
  obtain ⟨is, hidx, hmap⟩ := commitSeqN_to_idxs n ts q slots q1 h
  obtain ⟨hnodup, hbound, _⟩ :=
    commitIdxs_facts n ts q.usage is q1.usage hb hidx
  rw [hmap]
  refine List.Nodup.map_on ?_ hnodup
  intro x hx y hy hxy
  exact slotOf_inj q hnd hcap hg x y (hbound x hx) (hbound y hy) hxy

/-- A consistent pool with two containers of capacity 2 and all four
slots free. -/
def qC : QueryPool :=
  { growStep := 2, usage := [false, false, false, false],
    pools := [⟨0, 2⟩, ⟨1, 2⟩], nextHandle := 2, cursor := 4 }

/-- Witness for C2: three commits on qC with ticket sequence
(0, 0, 1, 3), the second of which must skip the now-used index 0, return
the pairwise distinct slots (0, 0), (0, 1), (1, 1). -/
theorem commit_slots_pairwise_distinct_witness :
    ([((0 : Nat), (0 : Nat)), (0, 1), (1, 1)] :
      List (Nat × Nat)).Pairwise (· ≠ ·) :=
  commit_slots_pairwise_distinct qC 3 [0, 0, 1, 3]
    [(0, 0), (0, 1), (1, 1)]
    { growStep := 2, usage := [true, true, false, true],
      pools := [⟨0, 2⟩, ⟨1, 2⟩], nextHandle := 2, cursor := 4 }
    (by decide) (by decide) (by decide) (by decide) (by decide)

end Vulkan
